import Mathlib

/-!
Verification of the exact k-ary dynamic-programming oracle
(`oracle/kary300_exact_oracle_dp.py` of the Zippy-Bag repository).

The embedding is generic over the type `ι` of object IDs, the type `α` of
attribute names (both linearly ordered, as Python sorts them), and the type
`β` of attribute values (with decidable equality, as Python hashes and
compares them).  Costs are exact rationals (`ℚ`), entropies are reals via
`Real.logb 2`.

The Python recursion `_solve_state` terminates because every proper split
strictly shrinks the candidate set; here the recursion is implemented with a
structural fuel equal to the state's size (`solve_stateF`) — provably enough
fuel — and the faithful recursive equation is recovered as the theorem
`solve_state_eq`.  Likewise the `while` loop of `simulate_target` becomes
`simulate_loopF` with fuel, and `simulate_loop_eq` recovers the loop body.
-/

section Defs

variable {ι α β : Type} [LinearOrder ι] [LinearOrder α] [DecidableEq β]

/-- Shannon entropy (in bits) of a uniform distribution over `n` objects:
`entropy_uniform n = 0` if `n ≤ 1`, else `log2 n`.  (Python `entropy_uniform`.) -/
noncomputable def entropy_uniform (n : ℕ) : ℝ :=
  if n ≤ 1 then 0 else Real.logb 2 n

/-- Python `OracleState.from_iterable`: store the IDs as a sorted tuple
(`tuple(sorted(ids))`).  Note the source sorts but does not deduplicate. -/
def OracleState.from_iterable (l : List ι) : List ι :=
  l.insertionSort (· ≤ ·)

/-- Python `KaryOracleDP._split_on_attribute`: partition a candidate state by
the value of a single attribute.  One non-empty group per distinct value
observed in the state; each group is canonicalized with `from_iterable`. -/
def split_on_attribute (v : ι → α → β) (state : List ι) (a : α) :
    List (List ι) :=
  ((state.map fun i => v i a).dedup).map fun w =>
    OracleState.from_iterable (state.filter fun i => decide (v i a = w))

/-- One step of the running-best scan of `_solve_state`'s `for attr` loop:
skip attributes with no cost (no proper split), adopt the first scored
attribute, and afterwards replace the incumbent only on a strictly smaller
expected cost (Python `if expected_cost < best_cost`). -/
def stepMin (f : α → Option ℚ) (best : Option (ℚ × α)) (a : α) :
    Option (ℚ × α) :=
  match f a with
  | none => best
  | some ec =>
    match best with
    | none => some (ec, a)
    | some (bc, ba) => if ec < bc then some (ec, a) else some (bc, ba)

/-- The whole `for attr in self._candidate_attributes(state)` loop:
a left fold of `stepMin` starting from no incumbent
(`best_cost = inf, best_attr = None`). -/
def scanMin (f : α → Option ℚ) (l : List α) : Option (ℚ × α) :=
  l.foldl (stepMin f) none

/-- Structural-recursion restatement of `scanMin` (first minimum wins),
used to reason about the fold by induction. -/
def scanMinRec (f : α → Option ℚ) : List α → Option (ℚ × α)
  | [] => none
  | a :: l =>
    match f a with
    | none => scanMinRec f l
    | some c =>
      match scanMinRec f l with
      | none => some (c, a)
      | some p => if p.1 < c then some p else some (c, a)

/-- Python `KaryOracleDP._solve_state`, implemented with a structural fuel
(first argument).  A fuel of `state.length` is always sufficient because
recursive calls are on strictly smaller states; see `solve_state_eq`. -/
def solve_stateF (v : ι → α → β) (A : List α) : ℕ → List ι → ℚ × Option α
  | 0, _ => (0, none)
  | fuel + 1, state =>
    if state.length ≤ 1 then (0, none)
    else
      match scanMin (fun a =>
          let children := split_on_attribute v state a
          if 2 ≤ children.length then
            some (1 + (children.map fun c =>
              ((c.length : ℚ) / (state.length : ℚ)) * (solve_stateF v A fuel c).1).sum)
          else none) A with
      | none => (0, none)
      | some p => (p.1, some p.2)

/-- Python `KaryOracleDP._solve_state` proper: return
`(optimal_expected_cost, best_attribute)` for a candidate state. -/
def solve_state (v : ι → α → β) (A : List α) (state : List ι) :
    ℚ × Option α :=
  solve_stateF v A state.length state

/-- The expected residual cost of asking attribute `a` at `state`:
`1 + Σ_children (|child| / |state|) * solve(child).cost`
(the body of the `for attr` loop of `_solve_state`). -/
def expected_cost (v : ι → α → β) (A : List α) (state : List ι) (a : α) : ℚ :=
  1 + ((split_on_attribute v state a).map fun c =>
    ((c.length : ℚ) / (state.length : ℚ)) * (solve_state v A c).1).sum

/-- The score `_solve_state` assigns to attribute `a` at `state`:
`none` when the attribute does not produce a proper split (the loop
`continue`s), otherwise the expected residual cost. -/
def attr_cost (v : ι → α → β) (A : List α) (state : List ι) (a : α) :
    Option ℚ :=
  if 2 ≤ (split_on_attribute v state a).length then
    some (expected_cost v A state a)
  else none

end Defs

/-- Python class `KaryOracleDP`: the object table.  `items_ids` are the keys
of the `items` dict (unique, as dict keys are, and non-empty because the
constructor raises `ValueError` on an empty table); `val i a` is
`items[i][a]`; `attr_keys` are the keys of one record, unique as dict keys. -/
structure KaryOracleDP (ι α β : Type) [LinearOrder ι] [LinearOrder α] where
  items_ids : List ι
  val : ι → α → β
  attr_keys : List α
  items_nonempty : items_ids ≠ []
  items_nodup : items_ids.Nodup
  attr_keys_nodup : attr_keys.Nodup

section OracleDefs

variable {ι α β : Type} [LinearOrder ι] [LinearOrder α] [DecidableEq β]

/-- `self.attributes = tuple(sorted(any_item.keys()))`: the askable schema,
attribute names in ascending order. -/
def KaryOracleDP.attributes (o : KaryOracleDP ι α β) : List α :=
  o.attr_keys.insertionSort (· ≤ ·)

/-- `self.root_state = OracleState.from_iterable(items.keys())`. -/
def KaryOracleDP.root_state (o : KaryOracleDP ι α β) : List ι :=
  OracleState.from_iterable o.items_ids

/-- `current_ids = set(self.root_state.ids)` at the start of
`simulate_target`, kept in canonical (sorted, duplicate-free) form. -/
def KaryOracleDP.initial_candidates (o : KaryOracleDP ι α β) : List ι :=
  o.root_state.dedup

/-- Python `KaryOracleDP.best_attribute_for_state`: canonicalize the input
IDs and consult the DP for the optimal next attribute. -/
def KaryOracleDP.best_attribute_for_state (o : KaryOracleDP ι α β)
    (candidate_ids : List ι) : Option α :=
  (solve_state o.val o.attributes (OracleState.from_iterable candidate_ids)).2

/-- The `while True` loop of `simulate_target`, with structural fuel.
Returns the successive candidate sets (the initial one included) and the
attributes asked; the caller maps `entropy_uniform ∘ length` over the
former, which reproduces the Python entropy list (the prior entropy
followed by one entropy per restriction). -/
def simulate_loopF (v : ι → α → β) (A : List α) (t : ι) :
    ℕ → List ι → List (List ι) × List α
  | 0, current => ([current], [])
  | fuel + 1, current =>
    if current.length ≤ 1 then ([current], [])
    else
      match (solve_state v A (OracleState.from_iterable current)).2 with
      | none => ([current], [])
      | some a =>
        let next := current.filter fun i => decide (v i a = v t a)
        let r := simulate_loopF v A t fuel next
        (current :: r.1, a :: r.2)

/-- The simulation loop with its (provably sufficient) fuel. -/
def simulate_loop (v : ι → α → β) (A : List α) (t : ι) (current : List ι) :
    List (List ι) × List α :=
  simulate_loopF v A t current.length current

/-- Python `KaryOracleDP.simulate_target`: `none` models the `KeyError`
raised on an unknown target ID; otherwise the entropy trajectory (in bits)
and the ordered list of attributes asked. -/
noncomputable def KaryOracleDP.simulate_target (o : KaryOracleDP ι α β)
    (t : ι) : Option (List ℝ × List α) :=
  if t ∈ o.items_ids then
    some ((simulate_loop o.val o.attributes t o.initial_candidates).1.map
            fun s => entropy_uniform s.length,
          (simulate_loop o.val o.attributes t o.initial_candidates).2)
  else none

end OracleDefs

/-- A one-object table: `{"0": {...}}` with a single attribute. -/
def oracleSingle : KaryOracleDP ℕ ℕ ℕ where
  items_ids := [0]
  val := fun i _ => i
  attr_keys := [0]
  items_nonempty := by decide
  items_nodup := by decide
  attr_keys_nodup := by decide

/-- A two-object table whose single attribute distinguishes the objects. -/
def oraclePair : KaryOracleDP ℕ ℕ ℕ where
  items_ids := [0, 1]
  val := fun i _ => i
  attr_keys := [0]
  items_nonempty := by decide
  items_nodup := by decide
  attr_keys_nodup := by decide

/-- A two-object table whose objects agree on every attribute
(an irreducible equivalence class of size 2). -/
def oracleTwin : KaryOracleDP ℕ ℕ ℕ where
  items_ids := [0, 1]
  val := fun _ _ => 0
  attr_keys := [0]
  items_nonempty := by decide
  items_nodup := by decide
  attr_keys_nodup := by decide

/-! ## General list and running-minimum lemmas -/

section ScanLemmas

variable {ι α β : Type}

/-- A duplicate-free list whose elements are all equal has at most one
element. -/
theorem length_le_one_of_all_eq {l : List β} {w : β} (hn : l.Nodup)
    (h : ∀ x ∈ l, x = w) : l.length ≤ 1 := by
  cases l with
  | nil => simp
  | cons x xs =>
    cases xs with
    | nil => simp
    | cons y ys =>
      exfalso
      have hx : x = w := h x (by simp)
      have hy : y = w := h y (by simp)
      have hne : x ≠ y := by
        intro he
        exact (List.nodup_cons.mp hn).1 (he ▸ List.mem_cons_self y ys)
      exact hne (hx.trans hy.symm)

/-- Filtering drops length strictly as soon as one element fails the
predicate. -/
theorem length_filter_lt_of_exists {p : ι → Bool} :
    ∀ {l : List ι}, (∃ x ∈ l, p x = false) →
      (l.filter p).length < l.length := by
  intro l
  induction l with
  | nil => rintro ⟨x, hx, _⟩; simp at hx
  | cons a l ih =>
    rintro ⟨x, hx, hpx⟩
    rcases List.mem_cons.mp hx with rfl | hx
    · rw [List.filter_cons_of_neg (by simp [hpx])]
      exact Nat.lt_succ_of_le (List.length_filter_le p l)
    · cases hpa : p a
      · rw [List.filter_cons_of_neg (by simp [hpa])]
        exact Nat.lt_succ_of_lt (ih ⟨x, hx, hpx⟩)
      · rw [List.filter_cons_of_pos (by simp [hpa])]
        simpa using Nat.succ_lt_succ (ih ⟨x, hx, hpx⟩)

/-- Folding `stepMin` from an incumbent: the incumbent survives unless the
rest of the scan finds a strictly smaller score. -/
theorem foldl_stepMin_some (f : α → Option ℚ) (l : List α) :
    ∀ (c₀ : ℚ) (a₀ : α),
      l.foldl (stepMin f) (some (c₀, a₀)) =
        match scanMinRec f l with
        | none => some (c₀, a₀)
        | some p => if p.1 < c₀ then some p else some (c₀, a₀) := by
  induction l with
  | nil => intro c₀ a₀; simp [scanMinRec]
  | cons a l ih =>
    intro c₀ a₀
    rw [List.foldl_cons]
    rcases hfa : f a with _ | c
    · have hstep : stepMin f (some (c₀, a₀)) a = some (c₀, a₀) := by
        simp [stepMin, hfa]
      rw [hstep, ih]
      simp [scanMinRec, hfa]
    · have hstep : stepMin f (some (c₀, a₀)) a =
          if c < c₀ then some (c, a) else some (c₀, a₀) := by
        simp [stepMin, hfa]
      rw [hstep]
      by_cases hlt : c < c₀
      · rw [if_pos hlt, ih]
        rcases hrec : scanMinRec f l with _ | p
        · simp [scanMinRec, hfa, hrec, hlt]
        · simp only [scanMinRec, hfa, hrec]
          by_cases h2 : p.1 < c
          · have h3 : p.1 < c₀ := lt_trans h2 hlt
            simp [h2, h3]
          · simp [h2, hlt]
      · rw [if_neg hlt, ih]
        rcases hrec : scanMinRec f l with _ | p
        · simp [scanMinRec, hfa, hrec, hlt]
        · simp only [scanMinRec, hfa, hrec]
          by_cases h2 : p.1 < c
          · simp [h2]
          · have hnp : ¬ p.1 < c₀ := by
              push_neg at hlt h2 ⊢
              exact le_trans hlt h2
            simp [h2, hlt, hnp]

/-- The left-to-right fold of `_solve_state`'s attribute loop computes the
structurally recursive first-minimum. -/
theorem scanMin_eq_scanMinRec (f : α → Option ℚ) (l : List α) :
    scanMin f l = scanMinRec f l := by
  induction l with
  | nil => rfl
  | cons a l ih =>
    rw [scanMin, List.foldl_cons]
    rcases hfa : f a with _ | c
    · have hstep : stepMin f none a = none := by simp [stepMin, hfa]
      rw [hstep]
      calc List.foldl (stepMin f) none l = scanMinRec f l := ih
        _ = scanMinRec f (a :: l) := by simp [scanMinRec, hfa]
    · have hstep : stepMin f none a = some (c, a) := by simp [stepMin, hfa]
      rw [hstep, foldl_stepMin_some]
      simp [scanMinRec, hfa]

/-- The scan reports no attribute exactly when no attribute has a score. -/
theorem scanMinRec_eq_none_iff (f : α → Option ℚ) (l : List α) :
    scanMinRec f l = none ↔ ∀ a ∈ l, f a = none := by
  induction l with
  | nil => simp [scanMinRec]
  | cons a l ih =>
    rcases hfa : f a with _ | c
    · simp [scanMinRec, hfa, ih]
    · have hne : (match scanMinRec f l with
          | none => some (c, a)
          | some p => if p.1 < c then some p else some (c, a)) ≠ none := by
        rcases scanMinRec f l with _ | p
        · simp
        · dsimp only
          split <;> simp
      constructor
      · intro h
        exact absurd h (by simpa [scanMinRec, hfa] using hne)
      · intro h
        exact absurd (h a (by simp)) (by simp [hfa])

/-- Full characterization of the scan: the reported pair is the score of the
first attribute attaining the minimum — every earlier scored attribute is
strictly worse, every later one no better. -/
theorem scanMinRec_spec (f : α → Option ℚ) :
    ∀ (l : List α) (c : ℚ) (a : α), scanMinRec f l = some (c, a) →
      ∃ pre post, l = pre ++ a :: post ∧ f a = some c ∧
        (∀ b ∈ pre, ∀ cb, f b = some cb → c < cb) ∧
        (∀ b ∈ post, ∀ cb, f b = some cb → c ≤ cb) := by
  intro l
  induction l with
  | nil => intro c a h; simp [scanMinRec] at h
  | cons a₀ l ih =>
    intro c a h
    rcases hfa : f a₀ with _ | c₀
    · simp only [scanMinRec, hfa] at h
      obtain ⟨pre, post, hl, hfa', hpre, hpost⟩ := ih c a h
      refine ⟨a₀ :: pre, post, by simp [hl], hfa', ?_, hpost⟩
      intro b hb cb hfb
      rcases List.mem_cons.mp hb with rfl | hb
      · rw [hfa] at hfb; exact absurd hfb (by simp)
      · exact hpre b hb cb hfb
    · simp only [scanMinRec, hfa] at h
      rcases hrec : scanMinRec f l with _ | ⟨pc, pa⟩
      · rw [hrec] at h
        injection h with h'
        injection h' with hc ha
        subst hc; subst ha
        refine ⟨[], l, rfl, hfa, by simp, ?_⟩
        intro b hb cb hfb
        have hnone := (scanMinRec_eq_none_iff f l).mp hrec b hb
        rw [hnone] at hfb
        exact absurd hfb (by simp)
      · rw [hrec] at h
        dsimp only at h
        by_cases h2 : pc < c₀
        · rw [if_pos h2] at h
          injection h with h'
          injection h' with hc ha
          subst hc; subst ha
          obtain ⟨pre, post, hl, hfp, hpre, hpost⟩ := ih pc pa hrec
          refine ⟨a₀ :: pre, post, by simp [hl], hfp, ?_, hpost⟩
          intro b hb cb hfb
          rcases List.mem_cons.mp hb with rfl | hb
          · rw [hfa] at hfb
            injection hfb with hcb
            rw [hcb] at h2
            exact h2
          · exact hpre b hb cb hfb
        · rw [if_neg h2] at h
          injection h with h'
          injection h' with hc ha
          subst hc; subst ha
          obtain ⟨pre, post, hl, hfp, hpre, hpost⟩ := ih pc pa hrec
          refine ⟨[], l, rfl, hfa, by simp, ?_⟩
          intro b hb cb hfb
          have hcpc : c₀ ≤ pc := not_lt.mp h2
          subst hl
          rcases List.mem_append.mp hb with hb | hb
          · exact le_of_lt (lt_of_le_of_lt hcpc (hpre b hb cb hfb))
          · rcases List.mem_cons.mp hb with rfl | hb
            · rw [hfp] at hfb
              injection hfb with hcb
              rw [hcb] at hcpc
              exact hcpc
            · exact le_trans hcpc (hpost b hb cb hfb)

end ScanLemmas

/-! ## Canonicalization and partition lemmas -/

section SplitLemmas

variable {ι α β : Type} [LinearOrder ι] [LinearOrder α] [DecidableEq β]

theorem from_iterable_perm (l : List ι) :
    List.Perm (OracleState.from_iterable l) l :=
  List.perm_insertionSort _ l

theorem from_iterable_sorted (l : List ι) :
    (OracleState.from_iterable l).Sorted (· ≤ ·) :=
  List.sorted_insertionSort _ l

theorem length_from_iterable (l : List ι) :
    (OracleState.from_iterable l).length = l.length :=
  (from_iterable_perm l).length_eq

theorem mem_from_iterable {x : ι} {l : List ι} :
    x ∈ OracleState.from_iterable l ↔ x ∈ l :=
  (from_iterable_perm l).mem_iff

/-- The number of groups of a split is the number of distinct values the
attribute takes on the state. -/
theorem split_on_attribute_length (v : ι → α → β) (state : List ι) (a : α) :
    (split_on_attribute v state a).length =
      ((state.map fun i => v i a).dedup).length :=
  List.length_map _ _

/-- If an attribute splits a state into at least two groups, then for any
value `w` some member of the state carries a different value. -/
theorem exists_ne_of_two_le_split {v : ι → α → β} {state : List ι} {a : α}
    (h2 : 2 ≤ (split_on_attribute v state a).length) (w : β) :
    ∃ x ∈ state, v x a ≠ w := by
  by_contra hcon
  push_neg at hcon
  have hall : ∀ u ∈ (state.map fun i => v i a).dedup, u = w := by
    intro u hu
    obtain ⟨x, hx, rfl⟩ := List.mem_map.mp (List.mem_dedup.mp hu)
    exact hcon x hx
  have hle := length_le_one_of_all_eq (List.nodup_dedup _) hall
  rw [split_on_attribute_length] at h2
  omega

/-- Restricting to any single value of a splitting attribute strictly
shrinks the state (this is why the DP recursion and the simulation loop
terminate). -/
theorem length_filter_value_lt {v : ι → α → β} {state : List ι} {a : α}
    (h2 : 2 ≤ (split_on_attribute v state a).length) (w : β) :
    (state.filter fun i => decide (v i a = w)).length < state.length := by
  obtain ⟨x, hx, hne⟩ := exists_ne_of_two_le_split h2 w
  exact length_filter_lt_of_exists ⟨x, hx, by simp [hne]⟩

/-- Every child of a proper split is strictly smaller than its parent. -/
theorem length_lt_of_mem_split {v : ι → α → β} {state : List ι} {a : α}
    (h2 : 2 ≤ (split_on_attribute v state a).length) {c : List ι}
    (hc : c ∈ split_on_attribute v state a) : c.length < state.length := by
  obtain ⟨w, _, rfl⟩ := List.mem_map.mp hc
  rw [length_from_iterable]
  exact length_filter_value_lt h2 w

/-- An attribute that is constant over the state yields at most one group. -/
theorem split_le_one_of_const {v : ι → α → β} {state : List ι} {a : α}
    {w : β} (h : ∀ x ∈ state, v x a = w) :
    (split_on_attribute v state a).length ≤ 1 := by
  rw [split_on_attribute_length]
  apply length_le_one_of_all_eq (List.nodup_dedup _)
  intro u hu
  obtain ⟨x, hx, rfl⟩ := List.mem_map.mp (List.mem_dedup.mp hu)
  exact h x hx

/-- The number of groups only depends on the state up to permutation. -/
theorem split_length_perm {v : ι → α → β} {s s' : List ι} (h : List.Perm s s')
    (a : α) :
    (split_on_attribute v s a).length = (split_on_attribute v s' a).length := by
  rw [split_on_attribute_length, split_on_attribute_length]
  exact ((h.map _).dedup).length_eq

end SplitLemmas

/-! ## The DP solver: fuel adequacy and the recursive equation -/

section SolveLemmas

variable {ι α β : Type} [LinearOrder ι] [LinearOrder α] [DecidableEq β]

/-- Any two fuels at least the state's size give the same DP answer. -/
theorem solve_stateF_congr (v : ι → α → β) (A : List α) :
    ∀ (n : ℕ) (state : List ι) (f g : ℕ), state.length ≤ n →
      state.length ≤ f → state.length ≤ g →
      solve_stateF v A f state = solve_stateF v A g state := by
  intro n
  induction n with
  | zero =>
    intro state f g hn _ _
    have hst : state = [] := List.length_eq_zero.mp (Nat.le_zero.mp hn)
    subst hst
    cases f <;> cases g <;> simp [solve_stateF]
  | succ n ih =>
    intro state f g hn hf hg
    cases f with
    | zero =>
      have hst : state = [] := List.length_eq_zero.mp (Nat.le_zero.mp hf)
      subst hst
      cases g <;> simp [solve_stateF]
    | succ f' =>
      cases g with
      | zero =>
        have hst : state = [] := List.length_eq_zero.mp (Nat.le_zero.mp hg)
        subst hst
        simp [solve_stateF]
      | succ g' =>
        simp only [solve_stateF]
        by_cases h1 : state.length ≤ 1
        · simp [h1]
        · rw [if_neg h1, if_neg h1]
          have hfun : (fun a =>
              let children := split_on_attribute v state a
              if 2 ≤ children.length then
                some (1 + (children.map fun c =>
                  ((c.length : ℚ) / (state.length : ℚ)) *
                    (solve_stateF v A f' c).1).sum)
              else none) =
              (fun a =>
              let children := split_on_attribute v state a
              if 2 ≤ children.length then
                some (1 + (children.map fun c =>
                  ((c.length : ℚ) / (state.length : ℚ)) *
                    (solve_stateF v A g' c).1).sum)
              else none) := by
            funext a
            by_cases hc : 2 ≤ (split_on_attribute v state a).length
            · simp only [hc, if_true]
              have hmap : ∀ c ∈ split_on_attribute v state a,
                  ((c.length : ℚ) / (state.length : ℚ)) *
                      (solve_stateF v A f' c).1 =
                    ((c.length : ℚ) / (state.length : ℚ)) *
                      (solve_stateF v A g' c).1 := by
                intro c hcm
                have hlt : c.length < state.length :=
                  length_lt_of_mem_split hc hcm
                rw [ih c f' g' (by omega) (by omega) (by omega)]
              rw [List.map_congr_left hmap]
            · simp only [hc, if_false]
          rw [hfun]

/-- The faithful recursion of Python `_solve_state`, recovered from the
fueled implementation: base case for states of size at most one, otherwise
the first-minimum scan of the per-attribute expected residual costs. -/
theorem solve_state_eq (v : ι → α → β) (A : List α) (state : List ι) :
    solve_state v A state =
      if state.length ≤ 1 then (0, none)
      else
        match scanMin (attr_cost v A state) A with
        | none => (0, none)
        | some p => (p.1, some p.2) := by
  show solve_stateF v A state.length state = _
  by_cases h1 : state.length ≤ 1
  · rcases Nat.le_one_iff_eq_zero_or_eq_one.mp h1 with h | h <;>
      rw [h] <;> simp [solve_stateF, h]
  · obtain ⟨m, hm⟩ : ∃ m, state.length = m + 1 :=
      ⟨state.length - 1, by omega⟩
    conv_lhs => rw [hm]
    simp only [solve_stateF]
    rw [if_neg h1, if_neg h1]
    have hfun : (fun a =>
        let children := split_on_attribute v state a
        if 2 ≤ children.length then
          some (1 + (children.map fun c =>
            ((c.length : ℚ) / (state.length : ℚ)) *
              (solve_stateF v A m c).1).sum)
        else none) = attr_cost v A state := by
      funext a
      by_cases hc : 2 ≤ (split_on_attribute v state a).length
      · simp only [hc, if_true, attr_cost, expected_cost]
        have hmap : ∀ c ∈ split_on_attribute v state a,
            ((c.length : ℚ) / (state.length : ℚ)) *
                (solve_stateF v A m c).1 =
              ((c.length : ℚ) / (state.length : ℚ)) *
                (solve_state v A c).1 := by
          intro c hcm
          have hlt : c.length < state.length := length_lt_of_mem_split hc hcm
          rw [solve_state,
            solve_stateF_congr v A c.length c m c.length le_rfl
              (by omega) le_rfl]
        rw [List.map_congr_left hmap]
      · simp only [hc, if_false, attr_cost]
    rw [hfun]

end SolveLemmas

section SolveDerived

variable {ι α β : Type} [LinearOrder ι] [LinearOrder α] [DecidableEq β]

/-- Base case of `_solve_state`: a state of size at most one needs no more
questions. -/
theorem solve_state_of_le_one (v : ι → α → β) (A : List α) {state : List ι}
    (h : state.length ≤ 1) : solve_state v A state = (0, none) := by
  rw [solve_state_eq, if_pos h]

theorem attr_cost_some {v : ι → α → β} {A : List α} {state : List ι} {a : α}
    {c : ℚ} (h : attr_cost v A state a = some c) :
    2 ≤ (split_on_attribute v state a).length ∧
      c = expected_cost v A state a := by
  by_cases hc : 2 ≤ (split_on_attribute v state a).length
  · rw [attr_cost, if_pos hc] at h
    injection h with h'
    exact ⟨hc, h'.symm⟩
  · rw [attr_cost, if_neg hc] at h
    exact absurd h (by simp)

/-- When `_solve_state` reports a best attribute, that attribute belongs to
the schema and its score is the reported optimal cost. -/
theorem solve_state_snd_spec {v : ι → α → β} {A : List α} {state : List ι}
    {a : α} (h : (solve_state v A state).2 = some a) :
    a ∈ A ∧ attr_cost v A state a = some ((solve_state v A state).1) := by
  have heq := solve_state_eq v A state
  by_cases h1 : state.length ≤ 1
  · rw [heq, if_pos h1] at h
    exact absurd h (by simp)
  · rw [heq, if_neg h1, scanMin_eq_scanMinRec] at h
    rcases hs : scanMinRec (attr_cost v A state) A with _ | p
    · rw [hs] at h
      exact absurd h (by simp)
    · rw [hs] at h
      dsimp only at h
      injection h with h'
      rw [heq, if_neg h1, scanMin_eq_scanMinRec, hs]
      obtain ⟨pre, post, hl, hf, _, _⟩ :=
        scanMinRec_spec (attr_cost v A state) A p.1 p.2 (by rw [hs])
      subst h'
      constructor
      · rw [hl]
        exact List.mem_append_right _ (List.mem_cons_self _ _)
      · exact hf

/-- A reported best attribute always produces a proper split. -/
theorem solve_state_snd_split {v : ι → α → β} {A : List α} {state : List ι}
    {a : α} (h : (solve_state v A state).2 = some a) :
    2 ≤ (split_on_attribute v state a).length :=
  (attr_cost_some (solve_state_snd_spec h).2).1

/-- When no attribute of the schema splits the state, `_solve_state`
returns cost `0` and no attribute (the irreducible-equivalence-class
terminal). -/
theorem solve_state_none_of_no_split {v : ι → α → β} {A : List α}
    {state : List ι}
    (h : ∀ a ∈ A, (split_on_attribute v state a).length ≤ 1) :
    solve_state v A state = (0, none) := by
  rw [solve_state_eq]
  by_cases h1 : state.length ≤ 1
  · rw [if_pos h1]
  · rw [if_neg h1, scanMin_eq_scanMinRec]
    have hn : scanMinRec (attr_cost v A state) A = none := by
      rw [scanMinRec_eq_none_iff]
      intro a ha
      rw [attr_cost, if_neg (by have := h a ha; omega)]
    rw [hn]

end SolveDerived

/-! ## The simulation loop: fuel adequacy and the loop equation -/

section SimLemmas

variable {ι α β : Type} [LinearOrder ι] [LinearOrder α] [DecidableEq β]

/-- After the simulation asks the reported best attribute, the restricted
candidate set is strictly smaller, whatever answer is observed. -/
theorem next_length_lt {v : ι → α → β} {A : List α} {current : List ι}
    {a : α}
    (ha : (solve_state v A (OracleState.from_iterable current)).2 = some a)
    (w : β) :
    (current.filter fun i => decide (v i a = w)).length < current.length := by
  have h2 := solve_state_snd_split ha
  rw [split_length_perm (from_iterable_perm current) a] at h2
  exact length_filter_value_lt h2 w

/-- Any two fuels at least the current set's size run the simulation loop
identically. -/
theorem simulate_loopF_congr (v : ι → α → β) (A : List α) (t : ι) :
    ∀ (n : ℕ) (current : List ι) (f g : ℕ), current.length ≤ n →
      current.length ≤ f → current.length ≤ g →
      simulate_loopF v A t f current = simulate_loopF v A t g current := by
  intro n
  induction n with
  | zero =>
    intro current f g hn _ _
    have hst : current = [] := List.length_eq_zero.mp (Nat.le_zero.mp hn)
    subst hst
    cases f <;> cases g <;> simp [simulate_loopF]
  | succ n ih =>
    intro current f g hn hf hg
    cases f with
    | zero =>
      have hst : current = [] := List.length_eq_zero.mp (Nat.le_zero.mp hf)
      subst hst
      cases g <;> simp [simulate_loopF]
    | succ f' =>
      cases g with
      | zero =>
        have hst : current = [] := List.length_eq_zero.mp (Nat.le_zero.mp hg)
        subst hst
        simp [simulate_loopF]
      | succ g' =>
        simp only [simulate_loopF]
        by_cases h1 : current.length ≤ 1
        · simp [h1]
        · rw [if_neg h1, if_neg h1]
          rcases hs : (solve_state v A (OracleState.from_iterable current)).2
            with _ | a
          · simp only [hs]
          · simp only [hs]
            have hlt : (current.filter fun i =>
                decide (v i a = v t a)).length < current.length :=
              next_length_lt hs (v t a)
            have hrec := ih (current.filter fun i => decide (v i a = v t a))
              f' g' (by omega) (by omega) (by omega)
            rw [hrec]

/-- The faithful body of the `while True` loop of `simulate_target`,
recovered from the fueled implementation: stop on a singleton candidate
set or when the DP reports no splitting attribute; otherwise ask the best
attribute, restrict to the members agreeing with the target's value, and
continue. -/
theorem simulate_loop_eq (v : ι → α → β) (A : List α) (t : ι)
    (current : List ι) :
    simulate_loop v A t current =
      if current.length ≤ 1 then ([current], [])
      else
        match (solve_state v A (OracleState.from_iterable current)).2 with
        | none => ([current], [])
        | some a =>
          (current :: (simulate_loop v A t
              (current.filter fun i => decide (v i a = v t a))).1,
           a :: (simulate_loop v A t
              (current.filter fun i => decide (v i a = v t a))).2) := by
  show simulate_loopF v A t current.length current = _
  by_cases h1 : current.length ≤ 1
  · rcases Nat.le_one_iff_eq_zero_or_eq_one.mp h1 with h | h <;>
      rw [h] <;> simp [simulate_loopF, h]
  · obtain ⟨m, hm⟩ : ∃ m, current.length = m + 1 :=
      ⟨current.length - 1, by omega⟩
    conv_lhs => rw [hm]
    simp only [simulate_loopF]
    rw [if_neg h1, if_neg h1]
    rcases hs : (solve_state v A (OracleState.from_iterable current)).2
      with _ | a
    · simp only [hs]
    · simp only [hs]
      have hlt : (current.filter fun i =>
          decide (v i a = v t a)).length < current.length :=
        next_length_lt hs (v t a)
      have hcongr := simulate_loopF_congr v A t
        (current.filter fun i => decide (v i a = v t a)).length
        (current.filter fun i => decide (v i a = v t a)) m
        (current.filter fun i => decide (v i a = v t a)).length
        le_rfl (by omega) le_rfl
      simp only [simulate_loop]
      rw [hcongr]

end SimLemmas

/-! ## Structural invariants of the simulation loop -/

section SimStructure

variable {ι α β : Type} [LinearOrder ι] [LinearOrder α] [DecidableEq β]

/-- The recorded candidate-set trajectory always starts with the current
candidate set (its entropy is the first value recorded). -/
theorem simulate_loop_fst_head (v : ι → α → β) (A : List α) (t : ι)
    (current : List ι) :
    ∃ rest, (simulate_loop v A t current).1 = current :: rest := by
  rw [simulate_loop_eq]
  by_cases h1 : current.length ≤ 1
  · rw [if_pos h1]
    exact ⟨[], rfl⟩
  · rw [if_neg h1]
    rcases hs : (solve_state v A (OracleState.from_iterable current)).2
      with _ | a
    · simp only [hs]
      exact ⟨[], rfl⟩
    · simp only [hs]
      exact ⟨_, rfl⟩

/-- One more entropy value than attributes asked. -/
theorem simulate_loop_length (v : ι → α → β) (A : List α) (t : ι) :
    ∀ (n : ℕ) (current : List ι), current.length ≤ n →
      (simulate_loop v A t current).1.length =
        (simulate_loop v A t current).2.length + 1 := by
  intro n
  induction n with
  | zero =>
    intro current hn
    have hst : current = [] := List.length_eq_zero.mp (Nat.le_zero.mp hn)
    subst hst
    rw [simulate_loop_eq]
    simp
  | succ n ih =>
    intro current hn
    rw [simulate_loop_eq]
    by_cases h1 : current.length ≤ 1
    · simp [h1]
    · rw [if_neg h1]
      rcases hs : (solve_state v A (OracleState.from_iterable current)).2
        with _ | a
      · simp only [hs]
        simp
      · simp only [hs]
        have hlt : (current.filter fun i =>
            decide (v i a = v t a)).length < current.length :=
          next_length_lt hs (v t a)
        have hrec := ih (current.filter fun i => decide (v i a = v t a))
          (by omega)
        simp [hrec]

/-- Candidate sets strictly shrink along the trajectory. -/
theorem simulate_loop_chain (v : ι → α → β) (A : List α) (t : ι) :
    ∀ (n : ℕ) (current : List ι), current.length ≤ n →
      List.Chain' (fun s1 s2 : List ι => s2.length < s1.length)
        (simulate_loop v A t current).1 := by
  intro n
  induction n with
  | zero =>
    intro current hn
    have hst : current = [] := List.length_eq_zero.mp (Nat.le_zero.mp hn)
    subst hst
    rw [simulate_loop_eq]
    simp
  | succ n ih =>
    intro current hn
    rw [simulate_loop_eq]
    by_cases h1 : current.length ≤ 1
    · simp [h1]
    · rw [if_neg h1]
      rcases hs : (solve_state v A (OracleState.from_iterable current)).2
        with _ | a
      · simp only [hs]
        simp
      · simp only [hs]
        have hlt : (current.filter fun i =>
            decide (v i a = v t a)).length < current.length :=
          next_length_lt hs (v t a)
        obtain ⟨rest, hrest⟩ := simulate_loop_fst_head v A t
          (current.filter fun i => decide (v i a = v t a))
        rw [List.chain'_cons']
        constructor
        · intro y hy
          rw [hrest] at hy
          simp only [List.head?_cons, Option.mem_def, Option.some.injEq] at hy
          subst hy
          exact hlt
        · exact ih (current.filter fun i => decide (v i a = v t a)) (by omega)

/-- The hidden target survives every restriction: it is a member of every
candidate set recorded along its own trajectory. -/
theorem simulate_loop_mem_target (v : ι → α → β) (A : List α) (t : ι) :
    ∀ (n : ℕ) (current : List ι), current.length ≤ n → t ∈ current →
      ∀ s ∈ (simulate_loop v A t current).1, t ∈ s := by
  intro n
  induction n with
  | zero =>
    intro current hn ht s hs
    have hst : current = [] := List.length_eq_zero.mp (Nat.le_zero.mp hn)
    subst hst
    exact absurd ht (List.not_mem_nil t)
  | succ n ih =>
    intro current hn ht s hsmem
    rw [simulate_loop_eq] at hsmem
    by_cases h1 : current.length ≤ 1
    · rw [if_pos h1] at hsmem
      simp only [List.mem_singleton] at hsmem
      subst hsmem
      exact ht
    · rw [if_neg h1] at hsmem
      rcases hs : (solve_state v A (OracleState.from_iterable current)).2
        with _ | a
      · rw [hs] at hsmem
        simp only [List.mem_singleton] at hsmem
        subst hsmem
        exact ht
      · rw [hs] at hsmem
        simp only [List.mem_cons] at hsmem
        rcases hsmem with rfl | hsmem
        · exact ht
        · have hlt : (current.filter fun i =>
              decide (v i a = v t a)).length < current.length :=
            next_length_lt hs (v t a)
          have htnext : t ∈ current.filter fun i => decide (v i a = v t a) :=
            List.mem_filter.mpr ⟨ht, by simp⟩
          exact ih (current.filter fun i => decide (v i a = v t a))
            (by omega) htnext s hsmem

/-- Every asked attribute comes from the schema. -/
theorem simulate_loop_asked_mem (v : ι → α → β) (A : List α) (t : ι) :
    ∀ (n : ℕ) (current : List ι), current.length ≤ n →
      ∀ b ∈ (simulate_loop v A t current).2, b ∈ A := by
  intro n
  induction n with
  | zero =>
    intro current hn b hb
    have hst : current = [] := List.length_eq_zero.mp (Nat.le_zero.mp hn)
    subst hst
    rw [simulate_loop_eq] at hb
    simp at hb
  | succ n ih =>
    intro current hn b hb
    rw [simulate_loop_eq] at hb
    by_cases h1 : current.length ≤ 1
    · rw [if_pos h1] at hb
      simp at hb
    · rw [if_neg h1] at hb
      rcases hs : (solve_state v A (OracleState.from_iterable current)).2
        with _ | a
      · rw [hs] at hb
        simp at hb
      · rw [hs] at hb
        simp only [List.mem_cons] at hb
        rcases hb with rfl | hb
        · exact (solve_state_snd_spec hs).1
        · have hlt : (current.filter fun i =>
              decide (v i a = v t a)).length < current.length :=
            next_length_lt hs (v t a)
          exact ih (current.filter fun i => decide (v i a = v t a))
            (by omega) b hb

/-- Once an attribute is constant over the candidate set, the loop never
asks it (the DP cannot pick a non-splitting attribute). -/
theorem simulate_loop_not_asked_of_const (v : ι → α → β) (A : List α)
    (t : ι) (a₀ : α) (w : β) :
    ∀ (n : ℕ) (current : List ι), current.length ≤ n →
      (∀ x ∈ current, v x a₀ = w) →
      a₀ ∉ (simulate_loop v A t current).2 := by
  intro n
  induction n with
  | zero =>
    intro current hn _
    have hst : current = [] := List.length_eq_zero.mp (Nat.le_zero.mp hn)
    subst hst
    rw [simulate_loop_eq]
    simp
  | succ n ih =>
    intro current hn hconst
    rw [simulate_loop_eq]
    by_cases h1 : current.length ≤ 1
    · simp [h1]
    · rw [if_neg h1]
      rcases hs : (solve_state v A (OracleState.from_iterable current)).2
        with _ | a
      · simp only [hs]
        simp
      · simp only [hs]
        intro hmem
        simp only [List.mem_cons] at hmem
        rcases hmem with rfl | hmem
        · have hsplit := solve_state_snd_split hs
          have hconst' : ∀ x ∈ OracleState.from_iterable current,
              v x a₀ = w := fun x hx =>
            hconst x (mem_from_iterable.mp hx)
          have := split_le_one_of_const hconst'
          omega
        · have hlt : (current.filter fun i =>
              decide (v i a = v t a)).length < current.length :=
            next_length_lt hs (v t a)
          have hconstnext : ∀ x ∈ current.filter fun i =>
              decide (v i a = v t a), v x a₀ = w := fun x hx =>
            hconst x (List.mem_of_mem_filter hx)
          exact ih (current.filter fun i => decide (v i a = v t a))
            (by omega) hconstnext hmem

/-- No attribute is asked twice along one trajectory. -/
theorem simulate_loop_asked_nodup (v : ι → α → β) (A : List α) (t : ι) :
    ∀ (n : ℕ) (current : List ι), current.length ≤ n →
      (simulate_loop v A t current).2.Nodup := by
  intro n
  induction n with
  | zero =>
    intro current hn
    have hst : current = [] := List.length_eq_zero.mp (Nat.le_zero.mp hn)
    subst hst
    rw [simulate_loop_eq]
    simp
  | succ n ih =>
    intro current hn
    rw [simulate_loop_eq]
    by_cases h1 : current.length ≤ 1
    · simp [h1]
    · rw [if_neg h1]
      rcases hs : (solve_state v A (OracleState.from_iterable current)).2
        with _ | a
      · simp only [hs]
        simp
      · simp only [hs]
        have hlt : (current.filter fun i =>
            decide (v i a = v t a)).length < current.length :=
          next_length_lt hs (v t a)
        apply List.nodup_cons.mpr
        constructor
        · apply simulate_loop_not_asked_of_const v A t a (v t a) n
            (current.filter fun i => decide (v i a = v t a)) (by omega)
          intro x hx
          exact of_decide_eq_true (List.mem_filter.mp hx).2
        · exact ih (current.filter fun i => decide (v i a = v t a)) (by omega)

end SimStructure

/-! ## Entropy lemmas -/

theorem entropy_uniform_nonneg (n : ℕ) : 0 ≤ entropy_uniform n := by
  unfold entropy_uniform
  split_ifs with h
  · exact le_refl 0
  · have h1 : (1:ℕ) ≤ n := by omega
    exact Real.logb_nonneg one_lt_two (by exact_mod_cast h1)

theorem entropy_uniform_mono {m n : ℕ} (h : m ≤ n) :
    entropy_uniform m ≤ entropy_uniform n := by
  by_cases hm : m ≤ 1
  · by_cases hn : n ≤ 1
    · simp [entropy_uniform, hm, hn]
    · simp only [entropy_uniform, if_pos hm, if_neg hn]
      have h1 : (1:ℕ) ≤ n := by omega
      exact Real.logb_nonneg one_lt_two (by exact_mod_cast h1)
  · have hn : ¬ n ≤ 1 := by omega
    simp only [entropy_uniform, if_neg hm, if_neg hn]
    have h0 : (0:ℝ) < m := by exact_mod_cast (by omega : 0 < m)
    exact Real.logb_le_logb_of_le one_lt_two h0 (by exact_mod_cast h)

theorem entropy_uniform_two : entropy_uniform 2 = 1 := by
  unfold entropy_uniform
  rw [if_neg (by omega)]
  have h2 : ((2:ℕ):ℝ) = 2 := by norm_num
  rw [h2, Real.logb_self_eq_one one_lt_two]

/-! ## Oracle-level helper lemmas -/

section OracleLemmas

variable {ι α β : Type} [LinearOrder ι] [LinearOrder α] [DecidableEq β]

theorem attributes_sorted (o : KaryOracleDP ι α β) :
    o.attributes.Sorted (· ≤ ·) :=
  List.sorted_insertionSort _ _

theorem initial_candidates_eq (o : KaryOracleDP ι α β) :
    o.initial_candidates = o.root_state :=
  List.dedup_eq_self.mpr
    ((from_iterable_perm o.items_ids).nodup_iff.mpr o.items_nodup)

theorem initial_candidates_length (o : KaryOracleDP ι α β) :
    o.initial_candidates.length = o.items_ids.length := by
  rw [initial_candidates_eq]
  exact length_from_iterable o.items_ids

theorem mem_initial_candidates {o : KaryOracleDP ι α β} {t : ι} :
    t ∈ o.initial_candidates ↔ t ∈ o.items_ids := by
  rw [initial_candidates_eq]
  exact mem_from_iterable

/-- The central characterization of `_solve_state` on a splittable state:
the schema decomposes around the reported attribute; its expected cost is
the reported cost; every splitting attribute scanned before it is strictly
costlier, every one after it no cheaper. -/
theorem solve_state_argmin_decomp (v : ι → α → β) (A : List α)
    (state : List ι) (h2 : 2 ≤ state.length)
    (hex : ∃ a ∈ A, 2 ≤ (split_on_attribute v state a).length) :
    ∃ a pre post, A = pre ++ a :: post ∧
      (solve_state v A state).2 = some a ∧
      2 ≤ (split_on_attribute v state a).length ∧
      expected_cost v A state a = (solve_state v A state).1 ∧
      (∀ b ∈ pre, 2 ≤ (split_on_attribute v state b).length →
        (solve_state v A state).1 < expected_cost v A state b) ∧
      (∀ b ∈ post, 2 ≤ (split_on_attribute v state b).length →
        (solve_state v A state).1 ≤ expected_cost v A state b) := by
  have heq := solve_state_eq v A state
  rw [if_neg (by omega : ¬ state.length ≤ 1), scanMin_eq_scanMinRec] at heq
  rcases hs : scanMinRec (attr_cost v A state) A with _ | p
  · exfalso
    obtain ⟨a, ha, hsplit⟩ := hex
    have hnone := (scanMinRec_eq_none_iff _ _).mp hs a ha
    rw [attr_cost, if_pos hsplit] at hnone
    exact absurd hnone (by simp)
  · rw [hs] at heq
    obtain ⟨pre, post, hl, hf, hpre, hpost⟩ :=
      scanMinRec_spec (attr_cost v A state) A p.1 p.2 (by rw [hs])
    obtain ⟨hsplit2, hcost⟩ := attr_cost_some hf
    refine ⟨p.2, pre, post, hl, ?_, hsplit2, ?_, ?_, ?_⟩
    · rw [heq]
    · rw [heq]
      exact hcost.symm
    · intro b hb hbsplit
      have hfb : attr_cost v A state b =
          some (expected_cost v A state b) := by
        rw [attr_cost, if_pos hbsplit]
      rw [heq]
      exact hpre b hb _ hfb
    · intro b hb hbsplit
      have hfb : attr_cost v A state b =
          some (expected_cost v A state b) := by
        rw [attr_cost, if_pos hbsplit]
      rw [heq]
      exact hpost b hb _ hfb

end OracleLemmas

/-! ## Claim theorems -/

section Claims

variable {ι α β : Type} [LinearOrder ι] [LinearOrder α] [DecidableEq β]

/-- Claim C1:  For every candidate state: if the state has at most one member,
`_solve_state` returns cost `0` and no attribute; otherwise, if at least one
attribute splits the state into two or more groups, the returned cost is
the minimum over all splitting attributes of
`1 + Σ_children (|child| / |state|) * solve(child).cost`
(this sum is `expected_cost`); non-splitting attributes are skipped. -/
theorem claim_solve_state_cost_min (v : ι → α → β) (A : List α)
    (state : List ι) :
    (state.length ≤ 1 → solve_state v A state = (0, none)) ∧
    (2 ≤ state.length →
      (∃ a ∈ A, 2 ≤ (split_on_attribute v state a).length) →
      (∃ a ∈ A, 2 ≤ (split_on_attribute v state a).length ∧
        (solve_state v A state).1 = expected_cost v A state a) ∧
      (∀ b ∈ A, 2 ≤ (split_on_attribute v state b).length →
        (solve_state v A state).1 ≤ expected_cost v A state b)) := by
  constructor
  · intro h
    exact solve_state_of_le_one v A h
  · intro h2 hex
    obtain ⟨a, pre, post, hl, _, hsplit, hcost, hpre, hpost⟩ :=
      solve_state_argmin_decomp v A state h2 hex
    constructor
    · refine ⟨a, ?_, hsplit, hcost.symm⟩
      rw [hl]
      exact List.mem_append_right _ (List.mem_cons_self _ _)
    · intro b hb hbsplit
      rw [hl] at hb
      rcases List.mem_append.mp hb with hb | hb
      · exact le_of_lt (hpre b hb hbsplit)
      · rcases List.mem_cons.mp hb with rfl | hb
        · exact le_of_eq hcost.symm
        · exact hpost b hb hbsplit

/-- Witness for C1 on a concrete two-object table with one splitting
attribute. -/
theorem claim_solve_state_cost_min_witness :
    (∃ a ∈ [0],
        2 ≤ (split_on_attribute (fun i _ => i : ℕ → ℕ → ℕ) [0, 1] a).length ∧
        (solve_state (fun i _ => i : ℕ → ℕ → ℕ) [0] [0, 1]).1 =
          expected_cost (fun i _ => i : ℕ → ℕ → ℕ) [0] [0, 1] a) ∧
    (∀ b ∈ [0],
        2 ≤ (split_on_attribute (fun i _ => i : ℕ → ℕ → ℕ) [0, 1] b).length →
        (solve_state (fun i _ => i : ℕ → ℕ → ℕ) [0] [0, 1]).1 ≤
          expected_cost (fun i _ => i : ℕ → ℕ → ℕ) [0] [0, 1] b) :=
  (claim_solve_state_cost_min (fun i _ => i : ℕ → ℕ → ℕ) [0] [0, 1]).2
    (by decide) (by decide)

/-- Claim C6:  On a splittable state, the attribute reported by `_solve_state` is
the first attribute, in schema order (attribute names sorted ascending),
whose expected cost attains the minimum over all splitting attributes; a
later attribute with an equal expected cost never replaces it (all earlier
splitting attributes are strictly costlier). -/
theorem claim_solve_state_first_argmin (o : KaryOracleDP ι α β)
    (state : List ι) (h2 : 2 ≤ state.length)
    (hex : ∃ a ∈ o.attributes,
      2 ≤ (split_on_attribute o.val state a).length) :
    o.attributes.Sorted (· ≤ ·) ∧
    ∃ a pre post, o.attributes = pre ++ a :: post ∧
      (solve_state o.val o.attributes state).2 = some a ∧
      2 ≤ (split_on_attribute o.val state a).length ∧
      expected_cost o.val o.attributes state a =
        (solve_state o.val o.attributes state).1 ∧
      (∀ b ∈ pre, 2 ≤ (split_on_attribute o.val state b).length →
        (solve_state o.val o.attributes state).1 <
          expected_cost o.val o.attributes state b) ∧
      (∀ b ∈ o.attributes, 2 ≤ (split_on_attribute o.val state b).length →
        (solve_state o.val o.attributes state).1 ≤
          expected_cost o.val o.attributes state b) := by
  refine ⟨attributes_sorted o, ?_⟩
  obtain ⟨a, pre, post, hl, hsnd, hsplit, hcost, hpre, hpost⟩ :=
    solve_state_argmin_decomp o.val o.attributes state h2 hex
  refine ⟨a, pre, post, hl, hsnd, hsplit, hcost, hpre, ?_⟩
  intro b hb hbsplit
  rw [hl] at hb
  rcases List.mem_append.mp hb with hb | hb
  · exact le_of_lt (hpre b hb hbsplit)
  · rcases List.mem_cons.mp hb with rfl | hb
    · exact le_of_eq hcost.symm
    · exact hpost b hb hbsplit

/-- Witness for C6 on a concrete two-object oracle. -/
theorem claim_solve_state_first_argmin_witness :
    oraclePair.attributes.Sorted (· ≤ ·) ∧
    ∃ a pre post, oraclePair.attributes = pre ++ a :: post ∧
      (solve_state oraclePair.val oraclePair.attributes [0, 1]).2 = some a ∧
      2 ≤ (split_on_attribute oraclePair.val [0, 1] a).length ∧
      expected_cost oraclePair.val oraclePair.attributes [0, 1] a =
        (solve_state oraclePair.val oraclePair.attributes [0, 1]).1 ∧
      (∀ b ∈ pre, 2 ≤ (split_on_attribute oraclePair.val [0, 1] b).length →
        (solve_state oraclePair.val oraclePair.attributes [0, 1]).1 <
          expected_cost oraclePair.val oraclePair.attributes [0, 1] b) ∧
      (∀ b ∈ oraclePair.attributes,
        2 ≤ (split_on_attribute oraclePair.val [0, 1] b).length →
        (solve_state oraclePair.val oraclePair.attributes [0, 1]).1 ≤
          expected_cost oraclePair.val oraclePair.attributes [0, 1] b) :=
  claim_solve_state_first_argmin oraclePair [0, 1] (by decide) (by decide)

end Claims

section Claims2

variable {ι α β : Type} [LinearOrder ι] [LinearOrder α] [DecidableEq β]

/-- Claim C2:  For every target present in the object table, `simulate_target`
returns an entropy sequence whose first element is `log2` of the table size
(`0` when the table has at most one entry — this is `entropy_uniform`),
whose values never increase from one step to the next, and whose length is
the number of attributes asked plus one. -/
theorem claim_simulate_target_trajectory (o : KaryOracleDP ι α β) (t : ι)
    (es : List ℝ) (asked : List α)
    (h : o.simulate_target t = some (es, asked)) :
    es.head? = some (entropy_uniform o.items_ids.length) ∧
    List.Chain' (fun x y : ℝ => y ≤ x) es ∧
    es.length = asked.length + 1 := by
  rw [KaryOracleDP.simulate_target] at h
  by_cases ht : t ∈ o.items_ids
  · rw [if_pos ht] at h
    injection h with h'
    injection h' with hes hasked
    subst hes
    subst hasked
    refine ⟨?_, ?_, ?_⟩
    · obtain ⟨rest, hrest⟩ :=
        simulate_loop_fst_head o.val o.attributes t o.initial_candidates
      rw [hrest]
      simp only [List.map_cons, List.head?_cons]
      rw [initial_candidates_length]
    · have hchain := simulate_loop_chain o.val o.attributes t
        o.initial_candidates.length o.initial_candidates le_rfl
      rw [List.chain'_map]
      exact List.Chain'.imp
        (fun s1 s2 hlt => entropy_uniform_mono (le_of_lt hlt)) hchain
    · rw [List.length_map]
      exact simulate_loop_length o.val o.attributes t
        o.initial_candidates.length o.initial_candidates le_rfl
  · rw [if_neg ht] at h
    exact absurd h (by simp)

/-- Witness for C2 on the one-object table. -/
theorem claim_simulate_target_trajectory_witness :
    ([entropy_uniform 1] : List ℝ).head? =
      some (entropy_uniform oracleSingle.items_ids.length) ∧
    List.Chain' (fun x y : ℝ => y ≤ x) ([entropy_uniform 1] : List ℝ) ∧
    ([entropy_uniform 1] : List ℝ).length = ([] : List ℕ).length + 1 :=
  claim_simulate_target_trajectory oracleSingle 0 [entropy_uniform 1] [] rfl

/-- Claim C3 counterexample:  `OracleState.from_iterable` does not deduplicate:
on the input `[0, 0]`, which contains the same ID twice, the result is
`[0, 0]`, in which the member `0` does not appear exactly once. -/
theorem claim_from_iterable_cex :
    OracleState.from_iterable [(0 : ℕ), 0] = [0, 0] ∧
    ¬ (OracleState.from_iterable [(0 : ℕ), 0]).Nodup := by
  decide

/-- Claim C3, amended:  Constructing a CandidateSet canonicalizes by sorting
only: the resulting sequence is sorted and is a permutation of the input
(so duplicates in the input are preserved, not removed). -/
theorem claim_from_iterable_sorts (l : List ι) :
    (OracleState.from_iterable l).Sorted (· ≤ ·) ∧
    List.Perm (OracleState.from_iterable l) l :=
  ⟨from_iterable_sorted l, from_iterable_perm l⟩

/-- Claim C4:  The `simulate_target` loop terminates (the embedding's loop is a
total function, with fuel adequacy proved by `simulate_loop_eq`), and the
number of steps taken — the length of the asked-attributes list — is at
most the number of attributes in the schema. -/
theorem claim_simulate_target_steps_le (o : KaryOracleDP ι α β) (t : ι)
    (es : List ℝ) (asked : List α)
    (h : o.simulate_target t = some (es, asked)) :
    asked.length ≤ o.attributes.length := by
  rw [KaryOracleDP.simulate_target] at h
  by_cases ht : t ∈ o.items_ids
  · rw [if_pos ht] at h
    injection h with h'
    injection h' with hes hasked
    subst hasked
    have hnd := simulate_loop_asked_nodup o.val o.attributes t
      o.initial_candidates.length o.initial_candidates le_rfl
    have hsub : (simulate_loop o.val o.attributes t o.initial_candidates).2 ⊆
        o.attributes := fun b hb =>
      simulate_loop_asked_mem o.val o.attributes t
        o.initial_candidates.length o.initial_candidates le_rfl b hb
    exact (List.subperm_of_subset hnd hsub).length_le
  · rw [if_neg ht] at h
    exact absurd h (by simp)

/-- Witness for C4 on the two-object oracle (one question is asked, one
attribute exists). -/
theorem claim_simulate_target_steps_le_witness :
    ([0] : List ℕ).length ≤ oraclePair.attributes.length :=
  claim_simulate_target_steps_le oraclePair 0
    [entropy_uniform 2, entropy_uniform 1] [0] rfl

/-- Claim C5:  Two input ID sequences that are reorderings of one another yield
the same canonical CandidateSet (hence equal values — and equal hashes —
for the memoization key), and `best_attribute_for_state` returns identical
results on them. -/
theorem claim_best_attribute_order_invariant (o : KaryOracleDP ι α β)
    (l1 l2 : List ι) (h : List.Perm l1 l2) :
    OracleState.from_iterable l1 = OracleState.from_iterable l2 ∧
    o.best_attribute_for_state l1 = o.best_attribute_for_state l2 := by
  have heq : OracleState.from_iterable l1 = OracleState.from_iterable l2 :=
    List.eq_of_perm_of_sorted
      ((from_iterable_perm l1).trans (h.trans (from_iterable_perm l2).symm))
      (from_iterable_sorted l1) (from_iterable_sorted l2)
  refine ⟨heq, ?_⟩
  rw [KaryOracleDP.best_attribute_for_state,
    KaryOracleDP.best_attribute_for_state, heq]

/-- Witness for C5: a reversed list versus the original. -/
theorem claim_best_attribute_order_invariant_witness :
    OracleState.from_iterable [(1 : ℕ), 0] =
      OracleState.from_iterable [(0 : ℕ), 1] ∧
    oraclePair.best_attribute_for_state [1, 0] =
      oraclePair.best_attribute_for_state [0, 1] :=
  claim_best_attribute_order_invariant oraclePair [1, 0] [0, 1] (by decide)

/-- Claim C7:  A state of two or more members on which every schema attribute is
constant is terminal: `_solve_state` returns cost `0` and no attribute.
Consequently, for two objects sharing identical values on every attribute,
the simulation loop stops as soon as the candidate set equals that pair:
no further attribute is asked and the recorded final entropy is
`log2 2 = 1` bit. -/
theorem claim_irreducible_class :
    (∀ (v : ι → α → β) (A : List α) (state : List ι), 2 ≤ state.length →
      (∀ a ∈ A, (split_on_attribute v state a).length ≤ 1) →
      solve_state v A state = (0, none)) ∧
    (∀ (o : KaryOracleDP ι α β) (t t' : ι), t ≠ t' →
      (∀ a ∈ o.attributes, o.val t a = o.val t' a) →
      simulate_loop o.val o.attributes t (OracleState.from_iterable [t, t']) =
        ([OracleState.from_iterable [t, t']], []) ∧
      entropy_uniform (OracleState.from_iterable [t, t']).length = 1) := by
  constructor
  · intro v A state _ hconst
    exact solve_state_none_of_no_split hconst
  · intro o t t' hne hsame
    have hlen : (OracleState.from_iterable [t, t']).length = 2 := by
      rw [length_from_iterable]
      rfl
    have hmempair : ∀ x ∈ OracleState.from_iterable [t, t'],
        x = t ∨ x = t' := by
      intro x hx
      have := mem_from_iterable.mp hx
      simpa using this
    have hsolve : solve_state o.val o.attributes
        (OracleState.from_iterable
          (OracleState.from_iterable [t, t'])) = (0, none) := by
      apply solve_state_none_of_no_split
      intro a ha
      have hconst : ∀ x ∈ OracleState.from_iterable
          (OracleState.from_iterable [t, t']), o.val x a = o.val t a := by
        intro x hx
        rcases hmempair x (mem_from_iterable.mp hx) with rfl | rfl
        · rfl
        · exact (hsame a ha).symm
      exact split_le_one_of_const hconst
    constructor
    · rw [simulate_loop_eq, if_neg (by omega)]
      rw [hsolve]
    · rw [hlen]
      exact entropy_uniform_two

/-- Witness for C7: a constant table for the first part, the twin oracle
for the second. -/
theorem claim_irreducible_class_witness :
    solve_state (fun _ _ => 0 : ℕ → ℕ → ℕ) [0] [0, 1] = (0, none) ∧
    (simulate_loop oracleTwin.val oracleTwin.attributes 0
        (OracleState.from_iterable [0, 1]) =
      ([OracleState.from_iterable [0, 1]], []) ∧
     entropy_uniform (OracleState.from_iterable [(0 : ℕ), 1]).length = 1) :=
  ⟨claim_irreducible_class.1 (fun _ _ => 0) [0] [0, 1] (by decide) (by decide),
   claim_irreducible_class.2 oracleTwin 0 1 (by decide) (by decide)⟩

/-- Claim C8:  `simulate_target` reports a lookup error (modelled by `none`)
exactly for target IDs that are not keys of the object table; for every
key no error is raised.  The embedding is pure, matching the source, where
the key check precedes any other computation and the oracle's state (table,
cache, root state) is never written by `simulate_target`. -/
theorem claim_simulate_target_key_error (o : KaryOracleDP ι α β) (t : ι) :
    o.simulate_target t = none ↔ t ∉ o.items_ids := by
  rw [KaryOracleDP.simulate_target]
  by_cases ht : t ∈ o.items_ids <;> simp [ht]

/-- Claim C9:  For a target present in the table, the target belongs to every
candidate set recorded along the trajectory (it survives every
restriction), so every recorded entropy value is `entropy_uniform` of a
positive count. -/
theorem claim_simulate_target_member_invariant (o : KaryOracleDP ι α β)
    (t : ι) (es : List ℝ) (asked : List α)
    (h : o.simulate_target t = some (es, asked)) :
    (∀ s ∈ (simulate_loop o.val o.attributes t o.initial_candidates).1,
      t ∈ s) ∧
    (∀ e ∈ es, ∃ n : ℕ, 0 < n ∧ e = entropy_uniform n) := by
  rw [KaryOracleDP.simulate_target] at h
  by_cases ht : t ∈ o.items_ids
  · rw [if_pos ht] at h
    injection h with h'
    injection h' with hes hasked
    have htini : t ∈ o.initial_candidates := mem_initial_candidates.mpr ht
    have hmem := simulate_loop_mem_target o.val o.attributes t
      o.initial_candidates.length o.initial_candidates le_rfl htini
    refine ⟨hmem, ?_⟩
    intro e he
    subst hes
    obtain ⟨s, hsmem, rfl⟩ := List.mem_map.mp he
    exact ⟨s.length,
      List.length_pos.mpr (List.ne_nil_of_mem (hmem s hsmem)), rfl⟩
  · rw [if_neg ht] at h
    exact absurd h (by simp)

/-- Witness for C9 on the one-object table. -/
theorem claim_simulate_target_member_invariant_witness :
    (∀ s ∈ (simulate_loop oracleSingle.val oracleSingle.attributes 0
        oracleSingle.initial_candidates).1, 0 ∈ s) ∧
    (∀ e ∈ ([entropy_uniform 1] : List ℝ),
      ∃ n : ℕ, 0 < n ∧ e = entropy_uniform n) :=
  claim_simulate_target_member_invariant oracleSingle 0
    [entropy_uniform 1] [] rfl

/-- Claim C10:  The asked-attributes list contains no attribute twice: after an
attribute is asked, it is constant over every later candidate set, so the
DP never reports it again in the same trajectory. -/
theorem claim_simulate_target_asked_nodup (o : KaryOracleDP ι α β) (t : ι)
    (es : List ℝ) (asked : List α)
    (h : o.simulate_target t = some (es, asked)) :
    asked.Nodup := by
  rw [KaryOracleDP.simulate_target] at h
  by_cases ht : t ∈ o.items_ids
  · rw [if_pos ht] at h
    injection h with h'
    injection h' with hes hasked
    subst hasked
    exact simulate_loop_asked_nodup o.val o.attributes t
      o.initial_candidates.length o.initial_candidates le_rfl
  · rw [if_neg ht] at h
    exact absurd h (by simp)

/-- Witness for C10 on the two-object oracle. -/
theorem claim_simulate_target_asked_nodup_witness :
    ([0] : List ℕ).Nodup :=
  claim_simulate_target_asked_nodup oraclePair 1
    [entropy_uniform 2, entropy_uniform 1] [0] rfl

end Claims2

section ExtraWitnesses

/-- Witness for C8: an absent key yields the error, by the key-error
criterion applied at a concrete oracle and target. -/
theorem claim_simulate_target_key_error_witness :
    oracleSingle.simulate_target 5 = none ↔ 5 ∉ oracleSingle.items_ids :=
  claim_simulate_target_key_error oracleSingle 5

/-- Witness for the amended C3 at a concrete duplicated, unsorted input. -/
theorem claim_from_iterable_sorts_witness :
    (OracleState.from_iterable [(2 : ℕ), 1, 2]).Sorted (· ≤ ·) ∧
    List.Perm (OracleState.from_iterable [(2 : ℕ), 1, 2]) [2, 1, 2] :=
  claim_from_iterable_sorts [2, 1, 2]

end ExtraWitnesses
